import Mathlib

/-!
Verification development for the OMNI `Identity` type
(`src/omni/src/types/identity.rs`): the 32-byte tagged binary layout, the
base32+CRC16 textual codec, the CBOR wire codec, and the equality /
key-matching predicates.

Machine integers (`u8`, `u32`, `u16`) are embedded as `Nat` with explicit
`% 2 ^ w` at the points where the source masks or truncates.  Byte buffers and
Rust strings are `List Nat` (strings are treated byte-wise; all strings
relevant here are ASCII).  Fallible Rust functions return explicit result
types, with a dedicated `panicked` outcome wherever the source can panic
(`unwrap`, slice-index out of range).
-/

namespace OmniIdentity

/-- Bytes of a Rust string literal (ASCII throughout this development). -/
def strBytes (s : String) : List Nat := s.data.map Char.toNat

/-! ### Bit strings

Helpers used to model the external `base32` crate (RFC 4648).  `natToBits w n`
is the big-endian bit string of `n % 2 ^ w`; `bitsVal` is its inverse.
-/

/-- Big-endian bits of the low `w` bits of `n` (most significant first). -/
def natToBits : Nat → Nat → List Bool
  | 0, _ => []
  | w + 1, n => natToBits w (n / 2) ++ [decide (n % 2 = 1)]

/-- Value of a big-endian bit string. -/
def bitsVal : List Bool → Nat
  | [] => 0
  | b :: bs => (cond b 1 0) * 2 ^ bs.length + bitsVal bs

/-- Bit string of a byte string (big-endian within each byte). -/
def bytesToBits : List Nat → List Bool
  | [] => []
  | b :: bs => natToBits 8 b ++ bytesToBits bs

/-- Regroup a bit string into bytes, 8 bits at a time; a trailing group of
fewer than 8 bits is dropped (this mirrors the `base32` crate truncating its
output to `input.length * 5 / 8` bytes). -/
def bitsToBytes : List Bool → List Nat
  | b0 :: b1 :: b2 :: b3 :: b4 :: b5 :: b6 :: b7 :: rest =>
    bitsVal [b0, b1, b2, b3, b4, b5, b6, b7] :: bitsToBytes rest
  | _ => []

/-- Regroup a bit string into 5-bit base32 symbol values; the encoder always
pads its input to a multiple of 5 bits first. -/
def bitsToVals : List Bool → List Nat
  | b0 :: b1 :: b2 :: b3 :: b4 :: rest =>
    bitsVal [b0, b1, b2, b3, b4] :: bitsToVals rest
  | _ => []

/-- Bit string of a list of 5-bit base32 symbol values. -/
def valsBits : List Nat → List Bool
  | [] => []
  | v :: vs => natToBits 5 v ++ valsBits vs

/-! ### Base32 (model of the external `base32` crate, RFC 4648 alphabet)

`base32::encode(Alphabet::RFC4648 { padding: false }, data)` produces the
uppercase alphabet `A`..`Z`, `2`..`7` with no `=` padding; `base32::decode`
uppercases its input first, maps `=` to the value 0, and returns `None` on any
character outside the table.
-/

/-- Uppercase RFC 4648 symbol (as an ASCII code) of a 5-bit value. -/
def valToChar (v : Nat) : Nat := if v < 26 then 65 + v else 24 + v

/-- ASCII lowercasing, as `str::to_ascii_lowercase` does byte-wise. -/
def toLowerB (c : Nat) : Nat := if 65 ≤ c ∧ c ≤ 90 then c + 32 else c

/-- Inverse RFC 4648 symbol table of the `base32` crate: case-insensitive,
`=` decodes to 0, anything else outside `A`..`Z`/`2`..`7` is rejected. -/
def charVal (c : Nat) : Option Nat :=
  let u := if 97 ≤ c ∧ c ≤ 122 then c - 32 else c
  if 65 ≤ u ∧ u ≤ 90 then some (u - 65)
  else if 50 ≤ u ∧ u ≤ 55 then some (u - 24)
  else if u = 61 then some 0
  else none

/-- Symbol values of a base32 string; `none` as soon as a character is
invalid (the crate's decoder bails out on the first bad character). -/
def charVals : List Nat → Option (List Nat)
  | [] => some []
  | c :: cs =>
    match charVal c, charVals cs with
    | some v, some vs => some (v :: vs)
    | _, _ => none

/-- RFC 4648 base32 encoding without padding (uppercase ASCII codes):
the input bits, zero-padded to a multiple of 5, grouped into symbols. -/
def b32encode (data : List Nat) : List Nat :=
  (bitsToVals (bytesToBits data ++
    List.replicate ((5 - 8 * data.length % 5) % 5) false)).map valToChar

/-- RFC 4648 base32 decoding without padding: `none` on an invalid character,
otherwise the symbol bits regrouped into `5 * length / 8` bytes. -/
def b32decode (s : List Nat) : Option (List Nat) :=
  match charVals s with
  | some vs => some (bitsToBytes (valsBits vs))
  | none => none

/-! ### CRC-16 (model of the external `crc_any` crate)

`CRCu16::crc16()` is CRC-16/ARC: reflected polynomial `0xA001`, initial value
0, no final xor.
-/

/-- One shift step of the reflected CRC-16/ARC computation. -/
def crcStep (c : Nat) : Nat := if c % 2 = 1 then (c / 2) ^^^ 0xA001 else c / 2

/-- Fold one input byte into the CRC state (xor, then 8 shift steps). -/
def crcByte (c b : Nat) : Nat :=
  crcStep (crcStep (crcStep (crcStep (crcStep (crcStep (crcStep (crcStep
    (c ^^^ b % 256))))))))

/-- CRC-16/ARC of a byte string. -/
def crc16 (data : List Nat) : Nat := data.foldl crcByte 0

/-- Big-endian bytes of a `u16` (`u16::to_be_bytes`). -/
def crcBeBytes (c : Nat) : List Nat := [c / 2 ^ 8 % 2 ^ 8, c % 2 ^ 8]

/-! ### The identity layout (`InnerIdentity`)

The source holds a `[u8; 32]`; the public `Identity` type is a transparent
wrapper around it, so the two are modelled as one type.
-/

/-- The canonical 32-byte layout (`InnerIdentity { bytes: [u8; 32] }`). -/
structure InnerIdentity where
  bytes : List Nat
deriving DecidableEq

/-- Tag byte `bytes[0]` (the buffer always has 32 bytes in the source). -/
def tagByte (x : InnerIdentity) : Nat := x.bytes.headD 0

/-- `InnerIdentity::anonymous`: the all-zero buffer. -/
def anonymous : InnerIdentity := ⟨List.replicate 32 0⟩

/-- `InnerIdentity::public_key`: tag 1, the 28 hash bytes, zero padding. -/
def public_key (hash : List Nat) : InnerIdentity :=
  ⟨1 :: (hash ++ List.replicate 3 0)⟩

/-- `InnerIdentity::subresource`: the `public_key` layout with
`bytes[0] = 0x80 + ((id & 0x7F000000) >> 24)` and the low 24 bits of `id`
big-endian in `bytes[29..32]` (`u32` masks and shifts written as `/` and `%`
by powers of two). -/
def subresource (hash : List Nat) (id : Nat) : InnerIdentity :=
  ⟨(0x80 + id / 2 ^ 24 % 2 ^ 7) ::
    (hash ++ [id / 2 ^ 16 % 2 ^ 8, id / 2 ^ 8 % 2 ^ 8, id % 2 ^ 8])⟩

/-- `is_anonymous`: `bytes[0] == 0`. -/
def is_anonymous (x : InnerIdentity) : Bool := tagByte x == 0

/-- `is_public_key`: `bytes[0] == 1`. -/
def is_public_key (x : InnerIdentity) : Bool := tagByte x == 1

/-- `is_subresource`: `matches!(bytes[0], 0x80..=0xFF)`. -/
def is_subresource (x : InnerIdentity) : Bool :=
  decide (0x80 ≤ tagByte x ∧ tagByte x ≤ 0xFF)

/-- `InnerIdentity::subresource_id`: for a subresource tag, the 31-bit id
rebuilt from `(bytes[0] & 0x7F) << 24` plus the trailing 3 bytes.  The
`none` fallback on the inner match is unreachable in the source (the buffer
is a `[u8; 32]`, so `bytes[29..32]` always has 3 bytes). -/
def subresource_id (x : InnerIdentity) : Option Nat :=
  if 0x80 ≤ tagByte x ∧ tagByte x ≤ 0xFF then
    match x.bytes.drop 29 with
    | [b29, b30, b31] =>
      some (tagByte x % 2 ^ 7 * 2 ^ 24 + ((b29 * 2 ^ 16) + (b30 * 2 ^ 8) + b31))
    | _ => none
  else none

/-- `InnerIdentity::hash`: `bytes[1..29]` for the key-carrying tags. -/
def hash (x : InnerIdentity) : Option (List Nat) :=
  if tagByte x = 1 ∨ (0x80 ≤ tagByte x ∧ tagByte x ≤ 0xFF) then
    some ((x.bytes.take 29).drop 1)
  else none

/-- `Identity::with_subresource_id`: rebuild a subresource from the carried
hash, or return `anonymous` when there is none. -/
def with_subresource_id (x : InnerIdentity) (subid : Nat) : InnerIdentity :=
  match hash x with
  | some h => subresource h subid
  | none => anonymous

/-- `Identity::matches_key`.  The key collaborator is external crypto, so a
key is modelled by its SHA3-224 digest: `keyHash = some kh` stands for
`Some(k)` with `Sha3_224::digest(k.to_public_key().to_bytes_stable()) = kh`
(a 28-byte string), and `none` for `None`.  Note the source zips the full
`bytes` buffer — starting at the tag byte — against the 28-byte digest. -/
def matches_key (x : InnerIdentity) (keyHash : Option (List Nat)) : Bool :=
  if is_anonymous x then keyHash.isNone
  else if is_public_key x || is_subresource x then
    match keyHash with
    | some kh => (x.bytes.zip kh).all fun p => p.1 == p.2
    | none => false
  else false

/-- `impl PartialEq for InnerIdentity`: per-variant comparison on
`(bytes[0], other.bytes[0])`; the Rust `match` with its range patterns and
`x == y` guard is written as the equivalent condition chain, in source
order. -/
def eqIdent (x y : InnerIdentity) : Bool :=
  if tagByte x = 0 ∧ tagByte y = 0 then true
  else if tagByte x = 1 ∧ tagByte y = 1 then
    (x.bytes.take 29).drop 1 == (y.bytes.take 29).drop 1
  else if 0x80 ≤ tagByte x ∧ tagByte x ≤ 0xFF ∧ 0x80 ≤ tagByte y ∧
      tagByte y ≤ 0xFF ∧ tagByte x = tagByte y then
    x.bytes.drop 1 == y.bytes.drop 1
  else false

/-! ### Errors and results

`OmniError` lives in the crate's `message` module, outside the given source
file.  Modelled from the spec: the error kinds of §7 with the payloads used at
the call sites (`invalid_identity()`, `invalid_identity_kind(byte.to_string())`
— the offending byte, stringified in the source — and
`invalid_identity_prefix(text)`).
-/

inductive OmniError where
  | invalidIdentity
  | invalidIdentityKind (kind : Nat)
  | invalidPrefixErr (s : List Nat)
deriving DecidableEq

/-- Result of `InnerIdentity::from_bytes` (`Result<Self, OmniError>`). -/
inductive BytesResult where
  | ok (x : InnerIdentity)
  | error (e : OmniError)
deriving DecidableEq

/-- `InnerIdentity::from_bytes`.  `u32::from_be_bytes([hi, b29, b30, b31])`
is written in radix-256 arithmetic; the inner `_` fallback is unreachable
(the length was checked to be exactly 32). -/
def from_bytes (bs : List Nat) : BytesResult :=
  match bs with
  | [] => .error .invalidIdentity
  | t :: _ =>
    if t = 0 then
      if bs.length > 1 then .error .invalidIdentity else .ok anonymous
    else if t = 1 then
      if bs.length ≠ 29 then .error .invalidIdentity
      else .ok (public_key ((bs.take 29).drop 1))
    else if 0x80 ≤ t ∧ t ≤ 0xFF then
      if bs.length ≠ 32 then .error .invalidIdentity
      else
        match bs.drop 29 with
        | [b29, b30, b31] =>
          .ok (subresource ((bs.take 29).drop 1)
            (t * 2 ^ 24 + ((b29 * 2 ^ 16) + (b30 * 2 ^ 8) + b31)))
        | _ => .error .invalidIdentity
    else .error (.invalidIdentityKind t)

/-- `InnerIdentity::to_vec`, the compact encoding: 1 byte for tag 0, 29 bytes
for tag 1, the full buffer for a subresource tag.  The source's final branch
is `unreachable!()`, modelled as `none`. -/
def to_vec (x : InnerIdentity) : Option (List Nat) :=
  if tagByte x = 0 then some [0]
  else if tagByte x = 1 then some (1 :: (x.bytes.take 29).drop 1)
  else if 0x80 ≤ tagByte x ∧ tagByte x ≤ 0xFF then some x.bytes
  else none

/-- `InnerIdentity::to_byte_array`: the raw 32-byte buffer. -/
def to_byte_array (x : InnerIdentity) : List Nat := x.bytes

/-- `impl Display for InnerIdentity`:
`"o" + lower(base32(to_vec())) + lower(base32(crc16_be)[0..2])`.
`none` propagates the `unreachable!()` of `to_vec` (the `.get(0..2).unwrap()`
never fails: the CRC encodes to 4 characters). -/
def toText (x : InnerIdentity) : Option (List Nat) :=
  match to_vec x with
  | some data =>
    some (111 :: ((b32encode data).map toLowerB ++
      (((b32encode (crcBeBytes (crc16 data))).map toLowerB).take 2)))
  | none => none

/-- Result of `InnerIdentity::from_str`, with an explicit `panicked` outcome:
the source can panic on byte-slice indexing (`&value[..len - 2][1..]` for
strings shorter than 3 bytes) and on `base32::decode(..).unwrap()`. -/
inductive ParseResult where
  | ok (x : InnerIdentity)
  | error (e : OmniError)
  | panicked
deriving DecidableEq

/-- `InnerIdentity::from_str`.  111 is `'o'`; the prefix error carries
`value[0..0].to_string()`, the empty string. -/
def from_str (value : List Nat) : ParseResult :=
  if value.head? ≠ some 111 then .error (.invalidPrefixErr [])
  else if value.drop 1 = strBytes "aa" then .ok anonymous
  else if value.length < 3 then .panicked
  else
    match b32decode ((value.take (value.length - 2)).drop 1) with
    | none => .panicked
    | some data =>
      match from_bytes data with
      | .error e => .error e
      | .ok result =>
        match toText result with
        | none => .panicked
        | some s => if s = value then .ok result else .error .invalidIdentity

/-! ### CBOR wire codec (`minicbor` `Encode`/`Decode` for `Identity`)

A decoder input is modelled as the structured item it walks: zero or more
leading tags around a text, byte-string, or other item.
-/

inductive CborItem where
  | tagItem (n : Nat) (inner : CborItem)
  | textItem (s : List Nat)
  | bytesItem (b : List Nat)
  | otherItem
deriving DecidableEq

/-- Wire-decode errors: `Error::Message("identities need to be tagged")`,
`Error::Message("Could not decode identity from bytes")` (all `OmniError`
failures are collapsed onto this by the source's `map_err`), and the type
error `d.bytes()` raises on a non-byte-string item. -/
inductive CborError where
  | taggedRequired
  | couldNotDecode
  | typeMismatch
deriving DecidableEq

inductive CborResult where
  | ok (x : InnerIdentity)
  | error (e : CborError)
  | panicked
deriving DecidableEq

/-- `impl Encode for Identity`: tag 10000 over the compact bytes
(`none` again propagating `to_vec`'s unreachable branch). -/
def encodeCbor (x : InnerIdentity) : Option CborItem :=
  match to_vec x with
  | some v => some (.tagItem 10000 (.bytesItem v))
  | none => none

/-- `impl Decode for Identity`: consume all leading tags (remembering whether
10000 was seen), then decode a text item via `from_str`, or a byte-string
item via `from_bytes` provided the identity tag was seen. -/
def decodeCbor : CborItem → Bool → CborResult
  | .tagItem n inner, tagged => decodeCbor inner (tagged || n == 10000)
  | .textItem s, _ =>
    match from_str s with
    | .ok x => .ok x
    | .error _ => .error .couldNotDecode
    | .panicked => .panicked
  | .bytesItem b, tagged =>
    if tagged then
      match from_bytes b with
      | .ok x => .ok x
      | .error _ => .error .couldNotDecode
    else .error .taggedRequired
  | .otherItem, tagged =>
    if tagged then .error .typeMismatch else .error .taggedRequired

/-! ### Well-formedness and the reachable-value invariant -/

/-- Basic well-formedness of the buffer: 32 bytes, each below 256 (guaranteed
by the `[u8; 32]` type in Rust). -/
def Wf (x : InnerIdentity) : Prop :=
  x.bytes.length = 32 ∧ ∀ b ∈ x.bytes, b < 256

/-- The invariant claimed for every reachable identity: a recognized tag byte,
all-zero trailing bytes for `Anonymous`, zero padding for `PublicKey`. -/
def Invariant (x : InnerIdentity) : Prop :=
  x.bytes.length = 32 ∧
  (tagByte x = 0 ∨ tagByte x = 1 ∨ (0x80 ≤ tagByte x ∧ tagByte x ≤ 0xFF)) ∧
  (tagByte x = 0 → x.bytes.drop 1 = List.replicate 31 0) ∧
  (tagByte x = 1 → x.bytes.drop 29 = List.replicate 3 0)

/-! ## Lemmas: bit strings -/

theorem natToBits_length (w n : Nat) : (natToBits w n).length = w := by
  induction w generalizing n with
  | zero => rfl
  | succ k ih => simp [natToBits, ih]

theorem bitsVal_append_bit (l : List Bool) (b : Bool) :
    bitsVal (l ++ [b]) = 2 * bitsVal l + cond b 1 0 := by
  induction l with
  | nil => cases b <;> simp [bitsVal]
  | cons x xs ih =>
    simp only [List.cons_append, bitsVal, List.append_eq, List.length_append,
      List.length_cons, List.length_nil, ih, pow_succ, Nat.zero_add, pow_zero]
    ring

theorem bitsVal_natToBits (w n : Nat) : bitsVal (natToBits w n) = n % 2 ^ w := by
  induction w generalizing n with
  | zero => simp [natToBits, bitsVal, Nat.mod_one]
  | succ k ih =>
    rw [natToBits, bitsVal_append_bit, ih]
    have h2 : n % 2 ^ (k + 1) = n % 2 + 2 * (n / 2 % 2 ^ k) := by
      rw [show (2 : Nat) ^ (k + 1) = 2 * 2 ^ k by ring, Nat.mod_mul]
    rw [h2]
    generalize n / 2 % 2 ^ k = m
    rcases Nat.mod_two_eq_zero_or_one n with h | h <;> simp [h] <;> omega

theorem bitsToBytes_append8 (bs rest : List Bool) (h : bs.length = 8) :
    bitsToBytes (bs ++ rest) = bitsVal bs :: bitsToBytes rest := by
  rcases bs with _ | ⟨b0, _ | ⟨b1, _ | ⟨b2, _ | ⟨b3, _ | ⟨b4, _ | ⟨b5, _ | ⟨b6, _ |
    ⟨b7, _ | ⟨b8, t⟩⟩⟩⟩⟩⟩⟩⟩⟩ <;>
    simp_all [bitsToBytes]

theorem bitsToBytes_short (l : List Bool) (h : l.length < 8) : bitsToBytes l = [] := by
  rcases l with _ | ⟨b0, _ | ⟨b1, _ | ⟨b2, _ | ⟨b3, _ | ⟨b4, _ | ⟨b5, _ | ⟨b6, _ |
    ⟨b7, t⟩⟩⟩⟩⟩⟩⟩⟩ <;>
    simp_all [bitsToBytes] <;> omega

theorem bytesToBits_length (l : List Nat) : (bytesToBits l).length = 8 * l.length := by
  induction l with
  | nil => rfl
  | cons b bs ih => simp [bytesToBits, natToBits_length, ih]; omega

theorem bitsToBytes_bytesToBits_append (l : List Nat) :
    ∀ tail : List Bool, (∀ b ∈ l, b < 256) →
      bitsToBytes (bytesToBits l ++ tail) = l ++ bitsToBytes tail := by
  induction l with
  | nil => intro tail _; rfl
  | cons b bs ih =>
    intro tail hb
    rw [bytesToBits, List.append_assoc, bitsToBytes_append8 _ _ (natToBits_length 8 b),
      bitsVal_natToBits, ih tail fun x hx => hb x (by simp [hx])]
    have hb0 : b % 2 ^ 8 = b := Nat.mod_eq_of_lt (hb b (by simp))
    rw [hb0, List.cons_append]

theorem bitsToVals_append5 (bs rest : List Bool) (h : bs.length = 5) :
    bitsToVals (bs ++ rest) = bitsVal bs :: bitsToVals rest := by
  rcases bs with _ | ⟨b0, _ | ⟨b1, _ | ⟨b2, _ | ⟨b3, _ | ⟨b4, _ | ⟨b5, t⟩⟩⟩⟩⟩⟩ <;>
    simp_all [bitsToVals]

theorem natToBits5_bitsVal : ∀ b0 b1 b2 b3 b4 : Bool,
    natToBits 5 (bitsVal [b0, b1, b2, b3, b4]) = [b0, b1, b2, b3, b4] := by decide

theorem bitsVal5_lt : ∀ b0 b1 b2 b3 b4 : Bool, bitsVal [b0, b1, b2, b3, b4] < 32 := by
  decide

theorem valsBits_bitsToVals : ∀ (n : Nat) (bs : List Bool), bs.length = 5 * n →
    valsBits (bitsToVals bs) = bs := by
  intro n
  induction n with
  | zero =>
    intro bs h
    have hnil : bs = [] := List.eq_nil_of_length_eq_zero (by omega)
    subst hnil; rfl
  | succ k ih =>
    intro bs h
    rcases bs with _ | ⟨b0, _ | ⟨b1, _ | ⟨b2, _ | ⟨b3, _ | ⟨b4, rest⟩⟩⟩⟩⟩
    · simp only [List.length_nil] at h; omega
    · simp only [List.length_cons, List.length_nil] at h; omega
    · simp only [List.length_cons, List.length_nil] at h; omega
    · simp only [List.length_cons, List.length_nil] at h; omega
    · simp only [List.length_cons, List.length_nil] at h; omega
    · show valsBits (bitsVal [b0, b1, b2, b3, b4] :: bitsToVals rest) =
        b0 :: b1 :: b2 :: b3 :: b4 :: rest
      rw [valsBits, natToBits5_bitsVal,
        ih rest (by simp only [List.length_cons] at h; omega)]
      simp

theorem bitsToVals_lt : ∀ (n : Nat) (bs : List Bool), bs.length ≤ n →
    ∀ v ∈ bitsToVals bs, v < 32 := by
  intro n
  induction n with
  | zero =>
    intro bs h v hv
    have hnil : bs = [] := List.eq_nil_of_length_eq_zero (by omega)
    subst hnil; simp [bitsToVals] at hv
  | succ k ih =>
    intro bs h v hv
    rcases bs with _ | ⟨b0, _ | ⟨b1, _ | ⟨b2, _ | ⟨b3, _ | ⟨b4, rest⟩⟩⟩⟩⟩
    · simp [bitsToVals] at hv
    · simp [bitsToVals] at hv
    · simp [bitsToVals] at hv
    · simp [bitsToVals] at hv
    · simp [bitsToVals] at hv
    · have hv2 : v = bitsVal [b0, b1, b2, b3, b4] ∨ v ∈ bitsToVals rest := by
        simpa [bitsToVals] using hv
      rcases hv2 with rfl | hv2
      · exact bitsVal5_lt b0 b1 b2 b3 b4
      · exact ih rest (by simp at h; omega) v hv2

theorem bitsToVals_length : ∀ (n : Nat) (bs : List Bool), bs.length ≤ n →
    (bitsToVals bs).length = bs.length / 5 := by
  intro n
  induction n with
  | zero =>
    intro bs h
    have hnil : bs = [] := List.eq_nil_of_length_eq_zero (by omega)
    subst hnil; rfl
  | succ k ih =>
    intro bs h
    rcases bs with _ | ⟨b0, _ | ⟨b1, _ | ⟨b2, _ | ⟨b3, _ | ⟨b4, rest⟩⟩⟩⟩⟩
    · simp [bitsToVals]
    · simp [bitsToVals]
    · simp [bitsToVals]
    · simp [bitsToVals]
    · simp [bitsToVals]
    · show (bitsVal [b0, b1, b2, b3, b4] :: bitsToVals rest).length = _
      simp only [List.length_cons, ih rest (by simp at h; omega)]
      omega

/-! ## Lemmas: base32 roundtrip -/

theorem charVal_lower_valToChar : ∀ v, v < 32 →
    charVal (toLowerB (valToChar v)) = some v := by decide

theorem charVals_encode : ∀ vs : List Nat, (∀ v ∈ vs, v < 32) →
    charVals (vs.map fun v => toLowerB (valToChar v)) = some vs := by
  intro vs
  induction vs with
  | nil => intro; rfl
  | cons v vs ih =>
    intro hvs
    simp only [List.map_cons, charVals]
    rw [charVal_lower_valToChar v (hvs v (by simp)), ih fun w hw => hvs w (by simp [hw])]

theorem b32_roundtrip (data : List Nat) (hb : ∀ b ∈ data, b < 256) :
    b32decode ((b32encode data).map toLowerB) = some data := by
  unfold b32encode b32decode
  rw [List.map_map]
  have hlen : (bytesToBits data ++
      List.replicate ((5 - 8 * data.length % 5) % 5) false).length =
      5 * ((8 * data.length + (5 - 8 * data.length % 5) % 5) / 5) := by
    simp [bytesToBits_length]
    omega
  have hcomp : toLowerB ∘ valToChar = fun v => toLowerB (valToChar v) := rfl
  rw [hcomp, charVals_encode _ (bitsToVals_lt _ _ (le_of_eq hlen))]
  show some (bitsToBytes (valsBits (bitsToVals (bytesToBits data ++
    List.replicate ((5 - 8 * data.length % 5) % 5) false)))) = some data
  rw [valsBits_bitsToVals _ _ hlen,
    bitsToBytes_bytesToBits_append data _ hb,
    bitsToBytes_short _ (by simp; omega)]
  simp

/-! ## Lemmas: the identity layout -/

theorem bytes_anonymous : anonymous.bytes = List.replicate 32 0 := rfl

theorem bytes_public_key (h : List Nat) :
    (public_key h).bytes = 1 :: (h ++ List.replicate 3 0) := rfl

theorem bytes_subresource (h : List Nat) (id : Nat) :
    (subresource h id).bytes = (0x80 + id / 2 ^ 24 % 2 ^ 7) ::
      (h ++ [id / 2 ^ 16 % 2 ^ 8, id / 2 ^ 8 % 2 ^ 8, id % 2 ^ 8]) := rfl

theorem tagByte_mk (l : List Nat) : tagByte ⟨l⟩ = l.headD 0 := rfl

theorem subresource_tag_lt (id : Nat) : id / 2 ^ 24 % 2 ^ 7 < 128 :=
  Nat.mod_lt _ (by norm_num)

theorem take29_drop1_cons (t : Nat) (h rest : List Nat) (hl : h.length = 28) :
    (((t :: (h ++ rest)) : List Nat).take 29).drop 1 = h := by
  have h1 : ((t :: (h ++ rest)) : List Nat).take 29 = t :: (h ++ rest).take 28 := rfl
  rw [h1, List.take_left' hl]
  rfl

theorem drop29_cons (t : Nat) (h rest : List Nat) (hl : h.length = 28) :
    ((t :: (h ++ rest)) : List Nat).drop 29 = rest := by
  have h1 : ((t :: (h ++ rest)) : List Nat).drop 29 = (h ++ rest).drop 28 := rfl
  rw [h1, List.drop_left' hl]

theorem length_cons_append (t : Nat) (h rest : List Nat) (hl : h.length = 28) :
    ((t :: (h ++ rest)) : List Nat).length = 29 + rest.length := by
  simp [hl]
  omega

/-- Re-folding the tag byte and trailing bytes of a subresource layout through
`u32::from_be_bytes` and back produces the identical layout. -/
theorem subresource_fold (h : List Nat) (id : Nat) :
    subresource h ((0x80 + id / 2 ^ 24 % 2 ^ 7) * 2 ^ 24 +
      ((id / 2 ^ 16 % 2 ^ 8) * 2 ^ 16 + (id / 2 ^ 8 % 2 ^ 8) * 2 ^ 8 + id % 2 ^ 8)) =
    subresource h id := by
  unfold subresource
  simp only [InnerIdentity.mk.injEq, List.cons.injEq, List.append_cancel_left_eq,
    and_true, true_and]
  refine ⟨?_, ?_, ?_, ?_⟩ <;> omega

theorem to_vec_anonymous : to_vec anonymous = some [0] := rfl

theorem to_vec_public_key (h : List Nat) (hl : h.length = 28) :
    to_vec (public_key h) = some (1 :: h) := by
  simp only [to_vec, tagByte, bytes_public_key, List.headD_cons]
  norm_num
  rw [List.take_left' hl]

theorem to_vec_subresource (h : List Nat) (id : Nat) :
    to_vec (subresource h id) = some (subresource h id).bytes := by
  have hd := subresource_tag_lt id
  simp only [to_vec, tagByte, bytes_subresource, List.headD_cons]
  rw [if_neg (by omega), if_neg (by omega), if_pos (by omega)]

theorem from_bytes_anonymous : from_bytes [0] = .ok anonymous := rfl

theorem from_bytes_public_key (h : List Nat) (hl : h.length = 28) :
    from_bytes (1 :: h) = .ok (public_key h) := by
  have h28 : ((1 :: h) : List Nat).take 29 = 1 :: h.take 28 := rfl
  have h28b : h.take 28 = h := by rw [← hl, List.take_length]
  simp [from_bytes, hl, h28, h28b]

theorem from_bytes_subresource (h : List Nat) (hl : h.length = 28) (id : Nat) :
    from_bytes (subresource h id).bytes = .ok (subresource h id) := by
  have hd := subresource_tag_lt id
  have hlen : ((0x80 + id / 2 ^ 24 % 2 ^ 7) ::
      (h ++ [id / 2 ^ 16 % 2 ^ 8, id / 2 ^ 8 % 2 ^ 8, id % 2 ^ 8]) : List Nat).length = 32 := by
    rw [length_cons_append _ _ _ hl]
    rfl
  rw [bytes_subresource]
  simp only [from_bytes, hlen, drop29_cons _ _ _ hl, take29_drop1_cons _ _ _ hl]
  rw [if_neg (by omega), if_neg (by omega), if_pos (by omega), if_neg (by omega)]
  exact congrArg BytesResult.ok (subresource_fold h id)

theorem hash_anonymous : hash anonymous = none := rfl

theorem hash_public_key (h : List Nat) (hl : h.length = 28) :
    hash (public_key h) = some h := by
  have ht : tagByte (public_key h) = 1 := rfl
  simp only [hash, ht, bytes_public_key]
  rw [if_pos (Or.inl trivial), take29_drop1_cons 1 h _ hl]

theorem hash_subresource (h : List Nat) (hl : h.length = 28) (id : Nat) :
    hash (subresource h id) = some h := by
  have hd := subresource_tag_lt id
  have ht : tagByte (subresource h id) = 0x80 + id / 2 ^ 24 % 2 ^ 7 := rfl
  simp only [hash, ht, bytes_subresource]
  rw [if_pos (Or.inr (by omega)), take29_drop1_cons _ _ _ hl]

theorem with_subresource_id_anonymous (subid : Nat) :
    with_subresource_id anonymous subid = anonymous := rfl

theorem with_subresource_id_public_key (h : List Nat) (hl : h.length = 28) (subid : Nat) :
    with_subresource_id (public_key h) subid = subresource h subid := by
  unfold with_subresource_id
  rw [hash_public_key h hl]

theorem with_subresource_id_subresource (h : List Nat) (hl : h.length = 28)
    (i subid : Nat) :
    with_subresource_id (subresource h i) subid = subresource h subid := by
  unfold with_subresource_id
  rw [hash_subresource h hl i]

/-! ## Lemmas: the textual codec -/

theorem toText_eq (x : InnerIdentity) (data : List Nat) (hv : to_vec x = some data) :
    toText x = some (111 :: ((b32encode data).map toLowerB ++
      (((b32encode (crcBeBytes (crc16 data))).map toLowerB).take 2))) := by
  unfold toText
  rw [hv]

theorem b32encode_length (data : List Nat) :
    (b32encode data).length =
      (8 * data.length + (5 - 8 * data.length % 5) % 5) / 5 := by
  unfold b32encode
  rw [List.length_map, bitsToVals_length _ _ (le_refl _)]
  simp [bytesToBits_length]

/-- Parsing the rendered text of an identity succeeds, provided the compact
bytes round-trip through `from_bytes`. -/
theorem from_str_toText (x : InnerIdentity) (data : List Nat)
    (hv : to_vec x = some data) (hlt : ∀ b ∈ data, b < 256) (hne : data ≠ [])
    (hrb : from_bytes data = .ok x) :
    from_str (111 :: ((b32encode data).map toLowerB ++
      (((b32encode (crcBeBytes (crc16 data))).map toLowerB).take 2))) = .ok x := by
  have hd1 : 1 ≤ data.length := List.length_pos.mpr hne
  have hmid1 : 1 ≤ ((b32encode data).map toLowerB).length := by
    rw [List.length_map, b32encode_length]
    omega
  have hsuflen : (((b32encode (crcBeBytes (crc16 data))).map toLowerB).take 2).length = 2 := by
    rw [List.length_take, List.length_map, b32encode_length]
    have hc : (crcBeBytes (crc16 data)).length = 2 := rfl
    rw [hc]
    omega
  have h_aa : ¬((111 :: ((b32encode data).map toLowerB ++
      (((b32encode (crcBeBytes (crc16 data))).map toLowerB).take 2)) : List Nat).drop 1 =
      strBytes "aa") := by
    intro heq
    simp only [List.drop_succ_cons, List.drop_zero] at heq
    have hlen := congrArg List.length heq
    rw [List.length_append, hsuflen, show (strBytes "aa").length = 2 from rfl] at hlen
    omega
  have h_len3 : ¬((111 :: ((b32encode data).map toLowerB ++
      (((b32encode (crcBeBytes (crc16 data))).map toLowerB).take 2)) : List Nat).length < 3) := by
    simp [hsuflen]
  have hext : (((111 : Nat) :: ((b32encode data).map toLowerB ++
      (((b32encode (crcBeBytes (crc16 data))).map toLowerB).take 2))).take
        (((111 : Nat) :: ((b32encode data).map toLowerB ++
          (((b32encode (crcBeBytes (crc16 data))).map toLowerB).take 2))).length - 2)).drop 1 =
      (b32encode data).map toLowerB := by
    have hvl : ((111 : Nat) :: ((b32encode data).map toLowerB ++
        (((b32encode (crcBeBytes (crc16 data))).map toLowerB).take 2))).length - 2 =
        ((b32encode data).map toLowerB).length + 1 := by
      simp [hsuflen]
    rw [hvl, List.take_succ_cons, List.take_left, List.drop_succ_cons, List.drop_zero]
  unfold from_str
  rw [if_neg (by simp), if_neg h_aa, if_neg h_len3, hext, b32_roundtrip data hlt]
  simp only [hrb]
  rw [toText_eq x data hv]
  simp

/-! ## Lemmas: the reachable-value invariant -/

theorem invariant_anonymous : Invariant anonymous :=
  ⟨rfl, Or.inl rfl, fun _ => rfl, fun h => absurd h (by decide)⟩

theorem invariant_public_key (h : List Nat) (hl : h.length = 28) :
    Invariant (public_key h) := by
  have ht : tagByte (public_key h) = 1 := rfl
  refine ⟨?_, Or.inr (Or.inl ht), ?_, ?_⟩
  · simp [bytes_public_key, hl]
  · intro h0; rw [ht] at h0; omega
  · intro _; rw [bytes_public_key, drop29_cons _ _ _ hl]

theorem invariant_subresource (h : List Nat) (hl : h.length = 28) (id : Nat) :
    Invariant (subresource h id) := by
  have hd := subresource_tag_lt id
  have ht : tagByte (subresource h id) = 0x80 + id / 2 ^ 24 % 2 ^ 7 := rfl
  refine ⟨?_, Or.inr (Or.inr ⟨by rw [ht]; omega, by rw [ht]; omega⟩), ?_, ?_⟩
  · rw [bytes_subresource, length_cons_append _ _ _ hl]
    rfl
  · intro h0; rw [ht] at h0; omega
  · intro h0; rw [ht] at h0; omega

theorem wf_anonymous : Wf anonymous := ⟨rfl, by decide⟩

theorem wf_public_key (h : List Nat) (hl : h.length = 28) (hb : ∀ b ∈ h, b < 256) :
    Wf (public_key h) := by
  refine ⟨by simp [bytes_public_key, hl], ?_⟩
  intro b hbmem
  simp only [bytes_public_key, List.mem_cons, List.mem_append, List.mem_replicate] at hbmem
  rcases hbmem with rfl | hbm | ⟨_, rfl⟩
  · omega
  · exact hb b hbm
  · omega

theorem wf_subresource (h : List Nat) (hl : h.length = 28) (hb : ∀ b ∈ h, b < 256)
    (id : Nat) : Wf (subresource h id) := by
  have hd := subresource_tag_lt id
  refine ⟨by rw [bytes_subresource, length_cons_append _ _ _ hl]; rfl, ?_⟩
  intro b hbmem
  simp only [bytes_subresource, List.mem_cons, List.mem_append] at hbmem
  rcases hbmem with rfl | hbm | rfl | rfl | rfl | hfalse
  · omega
  · exact hb b hbm
  · have := Nat.mod_lt (id / 2 ^ 16) (show 0 < 2 ^ 8 by norm_num); omega
  · have := Nat.mod_lt (id / 2 ^ 8) (show 0 < 2 ^ 8 by norm_num); omega
  · have := Nat.mod_lt id (show 0 < 2 ^ 8 by norm_num); omega
  · simp at hfalse

/-- A range-tag layout round-trips through `from_bytes` unchanged. -/
theorem from_bytes_range_cons (t : Nat) (h : List Nat) (a b c : Nat)
    (hl : h.length = 28) (hrange : 0x80 ≤ t ∧ t ≤ 0xFF)
    (ha : a < 256) (hb : b < 256) (hc : c < 256) :
    from_bytes (t :: (h ++ [a, b, c])) = .ok ⟨t :: (h ++ [a, b, c])⟩ := by
  have hlen : ((t :: (h ++ [a, b, c])) : List Nat).length = 32 := by
    rw [length_cons_append _ _ _ hl]
    rfl
  simp only [from_bytes, hlen, drop29_cons _ _ _ hl, take29_drop1_cons _ _ _ hl]
  have h0 : ¬(t = 0) := by omega
  have h1 : ¬(t = 1) := by omega
  have h32 : ¬((32 : Nat) ≠ 32) := fun hne => hne rfl
  have h321 : (32 : Nat) > 1 := by omega
  rw [if_neg h0, if_neg h1, if_pos hrange, if_neg h32]
  have hx : subresource h (t * 2 ^ 24 + ((a * 2 ^ 16) + (b * 2 ^ 8) + c)) =
      ⟨t :: (h ++ [a, b, c])⟩ := by
    unfold subresource
    simp only [InnerIdentity.mk.injEq, List.cons.injEq, List.append_cancel_left_eq,
      and_true, true_and]
    omega
  rw [hx]

/-- Every invariant-satisfying, well-formed identity has a compact encoding
that `from_bytes` maps back to it. -/
theorem to_vec_from_bytes_of_invariant (x : InnerIdentity) (hI : Invariant x)
    (hW : Wf x) : ∃ v, to_vec x = some v ∧ from_bytes v = .ok x := by
  obtain ⟨hlen32, htag, hanon, hpk⟩ := hI
  obtain ⟨-, hb256⟩ := hW
  rcases x with ⟨bytes⟩
  rcases bytes with _ | ⟨t, rest⟩
  · simp at hlen32
  have ht : tagByte ⟨t :: rest⟩ = t := rfl
  rw [ht] at htag hanon hpk
  have hrl : rest.length = 31 := by simp at hlen32; omega
  rcases htag with rfl | rfl | hrange
  · have hrest : rest = List.replicate 31 0 := by simpa using hanon rfl
    subst hrest
    exact ⟨[0], rfl, rfl⟩
  · have hdrop : rest.drop 28 = List.replicate 3 0 := by simpa using hpk rfl
    have hsplit : rest = rest.take 28 ++ List.replicate 3 0 := by
      conv_lhs => rw [← List.take_append_drop 28 rest]
      rw [hdrop]
    have hl28 : (rest.take 28).length = 28 := by
      rw [List.length_take]; omega
    have hx : (⟨1 :: rest⟩ : InnerIdentity) = public_key (rest.take 28) := by
      rw [public_key]
      conv_lhs => rw [hsplit]
    rw [hx]
    exact ⟨1 :: rest.take 28, to_vec_public_key _ hl28, from_bytes_public_key _ hl28⟩
  · have hl28 : (rest.take 28).length = 28 := by
      rw [List.length_take]; omega
    have hdl : (rest.drop 28).length = 3 := by
      rw [List.length_drop]; omega
    rcases hd : rest.drop 28 with _ | ⟨a, _ | ⟨b, _ | ⟨c, _ | ⟨d, u⟩⟩⟩⟩ <;>
      rw [hd] at hdl <;> simp at hdl
    have hsplit : rest = rest.take 28 ++ [a, b, c] := by
      conv_lhs => rw [← List.take_append_drop 28 rest]
      rw [hd]
    have hmem : ∀ e ∈ rest, e < 256 := fun e he => hb256 e (by simp [he])
    have habc : a < 256 ∧ b < 256 ∧ c < 256 := by
      refine ⟨hmem a ?_, hmem b ?_, hmem c ?_⟩ <;>
        · rw [hsplit]; simp
    have hv : to_vec ⟨t :: rest⟩ = some (t :: rest) := by
      simp only [to_vec, ht]
      rw [if_neg (by omega), if_neg (by omega), if_pos hrange]
    refine ⟨t :: rest, hv, ?_⟩
    conv_lhs => rw [hsplit]
    rw [from_bytes_range_cons t _ a b c hl28 hrange habc.1 habc.2.1 habc.2.2]
    rw [show ((⟨t :: (rest.take 28 ++ [a, b, c])⟩ : InnerIdentity) = ⟨t :: rest⟩) from by
      rw [← hsplit]]

theorem eqIdent_refl_of_invariant (x : InnerIdentity) (hI : Invariant x) :
    eqIdent x x = true := by
  obtain ⟨-, htag, -, -⟩ := hI
  unfold eqIdent
  rcases htag with h0 | h1 | hr
  · rw [if_pos ⟨h0, h0⟩]
  · rw [if_neg (by omega), if_pos ⟨h1, h1⟩]
    simp
  · rw [if_neg (by omega), if_neg (by omega),
      if_pos ⟨hr.1, hr.2, hr.1, hr.2, rfl⟩]
    simp

theorem take29_drop1_cons_take (t : Nat) (rest : List Nat) :
    (((t :: rest) : List Nat).take 29).drop 1 = rest.take 28 := rfl

theorem from_bytes_invariant (bs : List Nat) (x : InnerIdentity)
    (hok : from_bytes bs = .ok x) : Invariant x := by
  have hcast : ∀ y : InnerIdentity, BytesResult.ok y = BytesResult.ok x →
      Invariant y → Invariant x := by
    intro y h hy
    have hyx : y = x := by simpa using h
    exact hyx ▸ hy
  rcases bs with _ | ⟨t, rest⟩
  · simp [from_bytes] at hok
  · simp only [from_bytes, take29_drop1_cons_take] at hok
    split_ifs at hok with h0 hgt1 h1 hne29 hr hne32
    · have hx : anonymous = x := by simpa using hok
      exact hx ▸ invariant_anonymous
    · have hx : public_key (rest.take 28) = x := by simpa using hok
      refine hx ▸ invariant_public_key _ ?_
      rw [List.length_take]
      simp only [List.length_cons] at hne29
      omega
    · split at hok
      · refine hcast _ hok (invariant_subresource _ ?_ _)
        rw [List.length_take]
        simp only [List.length_cons] at hne32
        omega
      · simp at hok

theorem from_str_ok_cases (s : List Nat) (x : InnerIdentity)
    (hok : from_str s = .ok x) :
    x = anonymous ∨ ∃ data, from_bytes data = .ok x := by
  unfold from_str at hok
  split_ifs at hok with hp haa hl3
  · have hx : anonymous = x := by simpa using hok
    exact Or.inl hx.symm
  · split at hok
    · simp at hok
    · rename_i data hdata
      split at hok
      · simp at hok
      · rename_i r hfb
        split at hok
        · simp at hok
        · rename_i s2 hs2
          split_ifs at hok with heq2
          · have hx : r = x := by simpa using hok
            exact Or.inr ⟨data, by rw [← hx]; exact hfb⟩

theorem from_str_invariant (s : List Nat) (x : InnerIdentity)
    (hok : from_str s = .ok x) : Invariant x := by
  rcases from_str_ok_cases s x hok with rfl | ⟨data, hfb⟩
  · exact invariant_anonymous
  · exact from_bytes_invariant data x hfb

theorem decodeCbor_invariant (item : CborItem) : ∀ (tg : Bool) (x : InnerIdentity),
    decodeCbor item tg = .ok x → Invariant x := by
  induction item with
  | tagItem n inner ih =>
    intro tg x hok
    exact ih _ x hok
  | textItem s =>
    intro tg x hok
    simp only [decodeCbor] at hok
    split at hok
    · rename_i y hy
      have hx : y = x := by simpa using hok
      exact hx ▸ from_str_invariant s y hy
    · simp at hok
    · simp at hok
  | bytesItem b =>
    intro tg x hok
    simp only [decodeCbor] at hok
    split_ifs at hok
    split at hok
    · rename_i y hy
      have hx : y = x := by simpa using hok
      exact hx ▸ from_bytes_invariant b y hy
    · simp at hok
  | otherItem =>
    intro tg x hok
    simp only [decodeCbor] at hok
    split_ifs at hok <;> simp at hok

theorem to_vec_wf (x : InnerIdentity) (hW : Wf x) (v : List Nat)
    (hv : to_vec x = some v) : (∀ b ∈ v, b < 256) ∧ v ≠ [] := by
  obtain ⟨hlen, hb⟩ := hW
  unfold to_vec at hv
  split_ifs at hv with h0 h1 hr
  · have hveq : [0] = v := by simpa using hv
    subst hveq
    exact ⟨by decide, by decide⟩
  · have hveq : 1 :: (x.bytes.take 29).drop 1 = v := by simpa using hv
    subst hveq
    refine ⟨?_, by simp⟩
    intro b hbm
    rcases List.mem_cons.mp hbm with rfl | hbm2
    · omega
    · exact hb b (List.mem_of_mem_take (List.mem_of_mem_drop hbm2))
  · have hveq : x.bytes = v := by simpa using hv
    subst hveq
    refine ⟨hb, ?_⟩
    intro hnil
    rw [hnil] at hlen
    simp at hlen

theorem invariant_with_subresource_id (x : InnerIdentity) (id : Nat)
    (hI : Invariant x) : Invariant (with_subresource_id x id) := by
  obtain ⟨hlen, -, -, -⟩ := hI
  unfold with_subresource_id hash
  split_ifs with hcond
  · exact invariant_subresource _ (by simp [List.length_drop, List.length_take, hlen]) id
  · exact invariant_anonymous

theorem to_vec_isSome_of_invariant (x : InnerIdentity) (hI : Invariant x) :
    ∃ v, to_vec x = some v := by
  obtain ⟨-, htag, -, -⟩ := hI
  unfold to_vec
  rcases htag with h0 | h1 | hr
  · exact ⟨[0], by rw [if_pos h0]⟩
  · exact ⟨_, by rw [if_neg (by omega), if_pos h1]⟩
  · exact ⟨_, by rw [if_neg (by omega), if_neg (by omega), if_pos hr]⟩

/-! ## Claims -/

/-- C1: the spec claims `matches_key(derive_public_key_identity(k), Some(k))`
is true for every key; on the code it is false for any key whose SHA3-224
digest does not have this degenerate self-shifted shape, because
`matches_key` zips the buffer starting at the tag byte (not at byte 1)
against the digest.  Evaluated here at the all-zero 28-byte digest.  The
three remaining parts of the claim (Anonymous vs. `None`/`Some`, and a key
identity vs. `None`) do hold. -/
theorem claim_C1_matches_key_at_failing_input :
    matches_key (public_key (List.replicate 28 0)) (some (List.replicate 28 0)) = false ∧
    matches_key anonymous none = true ∧
    matches_key anonymous (some (List.replicate 28 0)) = false ∧
    matches_key (public_key (List.replicate 28 0)) none = false := by decide

/-- C2 (counterexample): the textual rendering of Anonymous is not `"oaa"` —
`to_vec` of Anonymous is the single byte `0x00`, whose base32 form is `"aa"`
and whose CRC suffix is `"aa"`, so Display produces `"oaaaa"`; there is no
special case in the Display implementation. -/
theorem claim_C2_counterexample : toText anonymous ≠ some (strBytes "oaa") := by
  decide

/-- C2 (amended): the textual rendering of Anonymous is exactly `"oaaaa"`,
and parsing the text `"oaa"` (via the parser's special case) yields the
Anonymous identity, on which `is_anonymous` is true. -/
theorem claim_C2_amended :
    toText anonymous = some (strBytes "oaaaa") ∧
    from_str (strBytes "oaa") = .ok anonymous ∧
    is_anonymous anonymous = true := by decide

/-- C3: the spec claims `from_str` is total and returns typed errors; the
code panics instead: `"o0000"` reaches `base32::decode(..).unwrap()` with an
invalid character and panics, and `"o"` panics on the underflowing byte-slice
index `&value[..len - 2]`.  The prefix half of the claim does hold: inputs
not starting with `'o'` yield `InvalidIdentityPrefix`. -/
theorem claim_C3_from_str_panics :
    from_str (strBytes "o0000") = .panicked ∧
    from_str (strBytes "o") = .panicked ∧
    from_str (strBytes "hello") = .error (.invalidPrefixErr []) ∧
    from_str [] = .error (.invalidPrefixErr []) := by decide

/-- C4: `from_bytes` validates the length against the tag byte and accepts
exactly: empty → `InvalidIdentity`; tag 0 iff length 1; tag 1 iff length 29
(bytes 1..=28 as the hash); tag `0x80..=0xFF` iff length 32; tags
`0x02..=0x7F` → `InvalidIdentityKind` with the offending byte; length
mismatches → `InvalidIdentity`. -/
theorem claim_C4_from_bytes_validation (bs : List Nat) :
    (bs = [] → from_bytes bs = .error .invalidIdentity) ∧
    (∀ t rest, bs = t :: rest →
      (t = 0 → if bs.length = 1 then from_bytes bs = .ok anonymous
               else from_bytes bs = .error .invalidIdentity) ∧
      (t = 1 → if bs.length = 29 then
                 from_bytes bs = .ok (public_key ((bs.take 29).drop 1))
               else from_bytes bs = .error .invalidIdentity) ∧
      (0x80 ≤ t → t ≤ 0xFF → if bs.length = 32 then
                 ∃ y, from_bytes bs = .ok y
               else from_bytes bs = .error .invalidIdentity) ∧
      (2 ≤ t → t ≤ 0x7F → from_bytes bs = .error (.invalidIdentityKind t))) := by
  constructor
  · rintro rfl
    rfl
  · rintro t rest rfl
    refine ⟨?_, ?_, ?_, ?_⟩
    · rintro rfl
      by_cases hr : ((0 : Nat) :: rest : List Nat).length = 1
      · rw [if_pos hr]
        have hnil : rest = [] := by
          simp only [List.length_cons] at hr
          exact List.eq_nil_of_length_eq_zero (by omega)
        subst hnil
        rfl
      · rw [if_neg hr]
        have hgt : ((0 : Nat) :: rest : List Nat).length > 1 := by
          simp only [List.length_cons] at hr ⊢
          omega
        simp [from_bytes, hgt]
        intro hnil
        subst hnil
        simp at hgt
    · rintro rfl
      by_cases hr : ((1 : Nat) :: rest : List Nat).length = 29
      · rw [if_pos hr]
        simp [from_bytes, hr]
      · rw [if_neg hr]
        simp [from_bytes, hr]
        simp only [List.length_cons] at hr
        omega
    · intro h80 hff
      by_cases hr : ((t : Nat) :: rest : List Nat).length = 32
      · rw [if_pos hr]
        have hdl : (rest.drop 28).length = 3 := by
          rw [List.length_drop]
          simp only [List.length_cons] at hr
          omega
        rcases hdd : rest.drop 28 with _ | ⟨a, _ | ⟨b, _ | ⟨c, _ | ⟨d, u⟩⟩⟩⟩ <;>
          rw [hdd] at hdl <;> simp at hdl
        refine ⟨subresource (((t :: rest : List Nat).take 29).drop 1)
          (t * 2 ^ 24 + ((a * 2 ^ 16) + (b * 2 ^ 8) + c)), ?_⟩
        simp only [from_bytes]
        rw [if_neg (by omega), if_neg (by omega), if_pos ⟨h80, hff⟩,
          if_neg (fun hh => hh hr)]
        have hdrop : ((t :: rest : List Nat)).drop 29 = [a, b, c] := hdd
        rw [hdrop]
      · rw [if_neg hr]
        simp only [from_bytes]
        rw [if_neg (by omega), if_neg (by omega), if_pos ⟨h80, hff⟩, if_pos hr]
    · intro h2 h7f
      simp only [from_bytes]
      rw [if_neg (by omega), if_neg (by omega), if_neg (by omega)]

/-- C4 (witness): concrete evaluations through the theorem at tag 5 (an
invalid kind) and at the 1-byte anonymous encoding. -/
theorem claim_C4_witness :
    from_bytes [5] = .error (.invalidIdentityKind 5) ∧ from_bytes [0] = .ok anonymous := by
  constructor
  · exact ((claim_C4_from_bytes_validation [5]).2 5 [] rfl).2.2.2 (by decide) (by decide)
  · have h := ((claim_C4_from_bytes_validation [0]).2 0 [] rfl).1 rfl
    rw [if_pos (by decide)] at h
    exact h

/-- C5: both round trips hold for every valid identity value — Anonymous,
PublicKey from a 28-byte hash, Subresource from a 28-byte hash and a 31-bit
id: `from_str (to_text x) = ok x`, and `from_bytes (to_vec x) = ok x` with
compact lengths 1 / 29 / 32. -/
theorem claim_C5_roundtrip (h : List Nat) (id : Nat) (hl : h.length = 28)
    (hb : ∀ b ∈ h, b < 256) (hid : id < 2 ^ 31) :
    ((∃ s, toText anonymous = some s ∧ from_str s = .ok anonymous) ∧
     (∃ s, toText (public_key h) = some s ∧ from_str s = .ok (public_key h)) ∧
     (∃ s, toText (subresource h id) = some s ∧
        from_str s = .ok (subresource h id))) ∧
    ((to_vec anonymous = some [0] ∧ from_bytes [0] = .ok anonymous) ∧
     (∃ v, to_vec (public_key h) = some v ∧ v.length = 29 ∧
        from_bytes v = .ok (public_key h)) ∧
     (∃ v, to_vec (subresource h id) = some v ∧ v.length = 32 ∧
        from_bytes v = .ok (subresource h id))) := by
  have hpk_bounds : ∀ b2 ∈ (1 : Nat) :: h, b2 < 256 := by
    intro b2 hb2
    rcases List.mem_cons.mp hb2 with rfl | hm
    · omega
    · exact hb _ hm
  have hsub_bounds := (wf_subresource h hl hb id).2
  have hsub_ne : (subresource h id).bytes ≠ [] := by
    rw [bytes_subresource]
    simp
  refine ⟨⟨?_, ?_, ?_⟩, ?_, ?_, ?_⟩
  · exact ⟨_, toText_eq _ _ to_vec_anonymous,
      from_str_toText _ _ to_vec_anonymous (by decide) (by decide) from_bytes_anonymous⟩
  · exact ⟨_, toText_eq _ _ (to_vec_public_key h hl),
      from_str_toText _ _ (to_vec_public_key h hl) hpk_bounds (by simp)
        (from_bytes_public_key h hl)⟩
  · exact ⟨_, toText_eq _ _ (to_vec_subresource h id),
      from_str_toText _ _ (to_vec_subresource h id) hsub_bounds hsub_ne
        (from_bytes_subresource h hl id)⟩
  · exact ⟨to_vec_anonymous, from_bytes_anonymous⟩
  · exact ⟨1 :: h, to_vec_public_key h hl, by simp [hl], from_bytes_public_key h hl⟩
  · exact ⟨(subresource h id).bytes, to_vec_subresource h id,
      by rw [bytes_subresource, length_cons_append _ _ _ hl]; rfl,
      from_bytes_subresource h hl id⟩

/-- C5 (witness): the round trips at the all-zero hash and id 1, with every
hypothesis discharged concretely. -/
theorem claim_C5_witness :
    (List.replicate 28 0).length = 28 ∧ (∀ b ∈ List.replicate 28 0, b < 256) ∧
    (1 : Nat) < 2 ^ 31 ∧
    (((∃ s, toText anonymous = some s ∧ from_str s = .ok anonymous) ∧
      (∃ s, toText (public_key (List.replicate 28 0)) = some s ∧
         from_str s = .ok (public_key (List.replicate 28 0))) ∧
      (∃ s, toText (subresource (List.replicate 28 0) 1) = some s ∧
         from_str s = .ok (subresource (List.replicate 28 0) 1))) ∧
     ((to_vec anonymous = some [0] ∧ from_bytes [0] = .ok anonymous) ∧
      (∃ v, to_vec (public_key (List.replicate 28 0)) = some v ∧ v.length = 29 ∧
         from_bytes v = .ok (public_key (List.replicate 28 0))) ∧
      (∃ v, to_vec (subresource (List.replicate 28 0) 1) = some v ∧ v.length = 32 ∧
         from_bytes v = .ok (subresource (List.replicate 28 0) 1)))) :=
  ⟨rfl, by decide, by decide,
    claim_C5_roundtrip (List.replicate 28 0) 1 rfl (by decide) (by decide)⟩

/-- C6: the subresource bit split is exact and invertible — the tag byte is
`0x80 ||| ((id >>> 24) &&& 0x7F)`, bytes 1..=28 are the hash, the low 24 bits
of the id sit big-endian in the last 3 bytes, `subresource_id` recovers the
31-bit id, and returns `none` on Anonymous and PublicKey identities. -/
theorem claim_C6_subresource_bits (h : List Nat) (id : Nat) (hl : h.length = 28)
    (hid : id < 2 ^ 31) :
    tagByte (subresource h id) = 0x80 ||| ((id >>> 24) &&& 0x7F) ∧
    ((subresource h id).bytes.take 29).drop 1 = h ∧
    (subresource h id).bytes.drop 29 =
      [id / 2 ^ 16 % 2 ^ 8, id / 2 ^ 8 % 2 ^ 8, id % 2 ^ 8] ∧
    subresource_id (subresource h id) = some id ∧
    subresource_id anonymous = none ∧
    subresource_id (public_key h) = none := by
  have hd := subresource_tag_lt id
  have hor : ∀ y : Nat, y < 128 → 128 ||| y = 128 + y := by decide
  refine ⟨?_, ?_, ?_, ?_, rfl, ?_⟩
  · show 0x80 + id / 2 ^ 24 % 2 ^ 7 = 0x80 ||| ((id >>> 24) &&& 0x7F)
    rw [Nat.shiftRight_eq_div_pow,
      show (0x7F : Nat) = 2 ^ 7 - 1 from rfl, Nat.and_pow_two_sub_one_eq_mod,
      hor _ (Nat.mod_lt _ (by norm_num))]
    omega
  · rw [bytes_subresource]
    exact take29_drop1_cons _ _ _ hl
  · rw [bytes_subresource]
    exact drop29_cons _ _ _ hl
  · have ht : tagByte (subresource h id) = 0x80 + id / 2 ^ 24 % 2 ^ 7 := rfl
    have hdrop : (subresource h id).bytes.drop 29 =
        [id / 2 ^ 16 % 2 ^ 8, id / 2 ^ 8 % 2 ^ 8, id % 2 ^ 8] := by
      rw [bytes_subresource]
      exact drop29_cons _ _ _ hl
    simp only [subresource_id, ht, hdrop]
    rw [if_pos ⟨by omega, by omega⟩]
    exact congrArg some (by omega)
  · have ht2 : tagByte (public_key h) = 1 := rfl
    simp only [subresource_id, ht2]
    rw [if_neg (by omega)]

/-- C6 (witness): the bit-split facts at the all-zero hash and id 1. -/
theorem claim_C6_witness :
    (List.replicate 28 0).length = 28 ∧ (1 : Nat) < 2 ^ 31 ∧
    (tagByte (subresource (List.replicate 28 0) 1) = 0x80 ||| ((1 >>> 24) &&& 0x7F) ∧
     ((subresource (List.replicate 28 0) 1).bytes.take 29).drop 1 = List.replicate 28 0 ∧
     (subresource (List.replicate 28 0) 1).bytes.drop 29 =
       [1 / 2 ^ 16 % 2 ^ 8, 1 / 2 ^ 8 % 2 ^ 8, 1 % 2 ^ 8] ∧
     subresource_id (subresource (List.replicate 28 0) 1) = some 1 ∧
     subresource_id anonymous = none ∧
     subresource_id (public_key (List.replicate 28 0)) = none) :=
  ⟨rfl, by decide, claim_C6_subresource_bits (List.replicate 28 0) 1 rfl (by decide)⟩

/-- C7: identity equality is exactly the per-variant rule — equal iff both
Anonymous, or both PublicKey with equal 28-byte hash slices (padding not
compared), or both Subresource with equal tag bytes and equal 31 trailing
bytes; any other combination (including unrecognized tag bytes) is unequal. -/
theorem claim_C7_equality (x y : InnerIdentity) :
    eqIdent x y = true ↔
      ((is_anonymous x = true ∧ is_anonymous y = true) ∨
       (is_public_key x = true ∧ is_public_key y = true ∧
         (x.bytes.take 29).drop 1 = (y.bytes.take 29).drop 1) ∨
       (is_subresource x = true ∧ is_subresource y = true ∧
         tagByte x = tagByte y ∧ x.bytes.drop 1 = y.bytes.drop 1)) := by
  unfold eqIdent is_anonymous is_public_key is_subresource
  simp only [beq_iff_eq, decide_eq_true_eq]
  split_ifs with h1 h2 h3
  · simp [h1.1, h1.2]
  · constructor
    · intro hs
      exact Or.inr (Or.inl ⟨h2.1, h2.2, by simpa using hs⟩)
    · intro hrh
      rcases hrh with ⟨ha, hb2⟩ | ⟨-, -, hsl⟩ | ⟨⟨hr1, -⟩, -, -, -⟩
      · omega
      · simpa using hsl
      · omega
  · obtain ⟨hx1, hx2, hy1, hy2, hxy⟩ := h3
    constructor
    · intro hs
      exact Or.inr (Or.inr ⟨⟨hx1, hx2⟩, ⟨hy1, hy2⟩, hxy, by simpa using hs⟩)
    · intro hrh
      rcases hrh with ⟨ha, -⟩ | ⟨ha, -, -⟩ | ⟨-, -, -, hdr⟩
      · omega
      · omega
      · simpa using hdr
  · constructor
    · intro hs
      simp at hs
    · intro hrh
      rcases hrh with ⟨ha, hb2⟩ | ⟨ha, hb2, -⟩ | ⟨⟨hxr1, hxr2⟩, ⟨hyr1, hyr2⟩, hxy, -⟩
      · exact h1 ⟨ha, hb2⟩
      · exact h2 ⟨ha, hb2⟩
      · exact h3 ⟨hxr1, hxr2, hyr1, hyr2, hxy⟩

/-- C8: the wire codec encodes every identity as tag 10000 over a byte string
holding the compact bytes; decoding consumes leading tags, decodes a text item
via the textual codec, decodes a tagged byte-string item via `from_bytes`
(round-tripping the encoder's output), and rejects an untagged byte-string
item with the tagging-required error. -/
theorem claim_C8_wire_codec (x : InnerIdentity) (hI : Invariant x) (hW : Wf x) :
    ∃ v, to_vec x = some v ∧
      encodeCbor x = some (.tagItem 10000 (.bytesItem v)) ∧
      decodeCbor (.tagItem 10000 (.bytesItem v)) false = .ok x ∧
      decodeCbor (.bytesItem v) false = .error .taggedRequired ∧
      ∀ s, toText x = some s → decodeCbor (.textItem s) false = .ok x := by
  obtain ⟨v, hv, hfb⟩ := to_vec_from_bytes_of_invariant x hI hW
  obtain ⟨hvb, hvne⟩ := to_vec_wf x hW v hv
  refine ⟨v, hv, ?_, ?_, rfl, ?_⟩
  · unfold encodeCbor
    rw [hv]
  · show decodeCbor (.bytesItem v) true = .ok x
    simp [decodeCbor, hfb]
  · intro s hs
    have htext := toText_eq x v hv
    rw [hs] at htext
    have hse : (111 :: ((b32encode v).map toLowerB ++
        (((b32encode (crcBeBytes (crc16 v))).map toLowerB).take 2)) : List Nat) = s := by
      simpa using htext.symm
    have hfs : from_str s = .ok x := by
      rw [← hse]
      exact from_str_toText x v hv hvb hvne hfb
    simp [decodeCbor, hfs]

/-- C8 (witness): the wire-codec facts at the Anonymous identity, with both
hypotheses discharged by explicit terms. -/
theorem claim_C8_witness :
    Invariant anonymous ∧ Wf anonymous ∧
    (∃ v, to_vec anonymous = some v ∧
      encodeCbor anonymous = some (.tagItem 10000 (.bytesItem v)) ∧
      decodeCbor (.tagItem 10000 (.bytesItem v)) false = .ok anonymous ∧
      decodeCbor (.bytesItem v) false = .error .taggedRequired ∧
      ∀ s, toText anonymous = some s → decodeCbor (.textItem s) false = .ok anonymous) :=
  ⟨⟨rfl, Or.inl rfl, fun _ => rfl, fun hh => absurd hh (by decide)⟩,
   ⟨rfl, by decide⟩,
   claim_C8_wire_codec anonymous
     ⟨rfl, Or.inl rfl, fun _ => rfl, fun hh => absurd hh (by decide)⟩
     ⟨rfl, by decide⟩⟩

/-- C9: `with_subresource_id` is total — returns Anonymous unchanged on
Anonymous, and otherwise rebuilds a Subresource from the carried 28-byte hash
and the new id; re-parenting twice equals deriving directly with the final
id. -/
theorem claim_C9_with_subresource_id (h : List Nat) (hl : h.length = 28)
    (i subid : Nat) :
    with_subresource_id anonymous subid = anonymous ∧
    with_subresource_id (public_key h) subid = subresource h subid ∧
    with_subresource_id (subresource h i) subid = subresource h subid ∧
    with_subresource_id (with_subresource_id (public_key h) 1) 2 = subresource h 2 :=
  ⟨with_subresource_id_anonymous subid,
   with_subresource_id_public_key h hl subid,
   with_subresource_id_subresource h hl i subid,
   by rw [with_subresource_id_public_key h hl 1, with_subresource_id_subresource h hl 1 2]⟩

/-- C9 (witness): re-parenting at the all-zero hash, ids 7 and 5. -/
theorem claim_C9_witness :
    (List.replicate 28 0).length = 28 ∧
    (with_subresource_id anonymous 5 = anonymous ∧
     with_subresource_id (public_key (List.replicate 28 0)) 5 =
       subresource (List.replicate 28 0) 5 ∧
     with_subresource_id (subresource (List.replicate 28 0) 7) 5 =
       subresource (List.replicate 28 0) 5 ∧
     with_subresource_id (with_subresource_id (public_key (List.replicate 28 0)) 1) 2 =
       subresource (List.replicate 28 0) 2) :=
  ⟨rfl, claim_C9_with_subresource_id (List.replicate 28 0) rfl 7 5⟩

/-- C10: every identity reachable through the constructors and parsers
satisfies the tag/zero-padding invariant, and on invariant-satisfying values
`to_vec` never reaches its `unreachable!()` branch and equality is
reflexive. -/
theorem claim_C10_invariants :
    Invariant anonymous ∧
    (∀ h, h.length = 28 → Invariant (public_key h)) ∧
    (∀ h id, h.length = 28 → Invariant (subresource h id)) ∧
    (∀ x id, Invariant x → Invariant (with_subresource_id x id)) ∧
    (∀ bs x, from_bytes bs = .ok x → Invariant x) ∧
    (∀ s x, from_str s = .ok x → Invariant x) ∧
    (∀ item tg x, decodeCbor item tg = .ok x → Invariant x) ∧
    (∀ x, Invariant x → (∃ v, to_vec x = some v) ∧ eqIdent x x = true) :=
  ⟨invariant_anonymous,
   fun h hl => invariant_public_key h hl,
   fun h id hl => invariant_subresource h hl id,
   fun x id hI => invariant_with_subresource_id x id hI,
   fun bs x hok => from_bytes_invariant bs x hok,
   fun s x hok => from_str_invariant s x hok,
   fun item tg x hok => decodeCbor_invariant item tg x hok,
   fun x hI => ⟨to_vec_isSome_of_invariant x hI, eqIdent_refl_of_invariant x hI⟩⟩

/-- C10 (witness): the invariant and its consequences at Anonymous. -/
theorem claim_C10_witness :
    Invariant anonymous ∧
    ((∃ v, to_vec anonymous = some v) ∧ eqIdent anonymous anonymous = true) :=
  ⟨claim_C10_invariants.1,
   claim_C10_invariants.2.2.2.2.2.2.2 anonymous claim_C10_invariants.1⟩

end OmniIdentity
